import Mathlib

/-!
Verification of the OpusFilter step-execution engine
(`src/opusfilter/opusfilter.py`) against its specification.

Files are modelled as lists of line contents (no trailing newline).
Randomness (`random.sample`, `random.shuffle`) is modelled by explicit
parameters constrained by the documented contracts of the Python
`random` module.
-/

namespace OpusFilterPy

/-- A row of `order_by_rank`'s zipped corpus: (source line, target line, rank line). -/
abbrev Row := String × String × String

/-- Lexicographic comparison of character lists by code point. -/
def pyStrLtGo : List Char → List Char → Bool
  | [], [] => false
  | [], _ :: _ => true
  | _ :: _, [] => false
  | c :: cs, d :: ds => if c < d then true else if d < c then false else pyStrLtGo cs ds

/-- Python's `<` on strings: lexicographic comparison by Unicode code point. -/
def pyStrLt (s t : String) : Bool := pyStrLtGo s.data t.data

/-- Python's `zip` over three sequences: truncates to the shortest. -/
def zip3 : List String → List String → List String → List Row
  | s :: ss, t :: ts, r :: rs => (s, t, r) :: zip3 ss ts rs
  | _, _, _ => []

/-- Insert a row into a list already sorted in non-increasing rank order,
keeping the row before any row of equal rank (stability of Python's
`sorted(..., key=lambda t: t[2], reverse=True)` at line 307: the inserted
row comes from earlier in the original sequence). -/
def insertByRankDesc (a : Row) : List Row → List Row
  | [] => [a]
  | b :: s => if pyStrLt a.2.2 b.2.2 then b :: insertByRankDesc a s else a :: b :: s

/-- Stable sort in non-increasing order of the rank field, compared as text
(`sorted(zipped, key=lambda t: t[2], reverse=True)`, opusfilter.py line 307).
String comparison is lexicographic by code point, as in Python. -/
def sortByRankDesc : List Row → List Row
  | [] => []
  | a :: l => insertByRankDesc a (sortByRankDesc l)

/-- Embedding of `OpusFilter.order_by_rank` (opusfilter.py lines 295-319) on the line
contents of the three input files: zip the three files by line index, sort
rows in non-increasing order of the rank field compared as text, and write
the three columns back out. -/
def order_by_rank (src tgt ranks : List String) :
    List String × List String × List String :=
  let zipped := sortByRankDesc (zip3 src tgt ranks)
  (zipped.map (·.1), zipped.map (·.2.1), zipped.map (·.2.2))

/-- The keys of the step-type → handler table `self.step_functions`
(opusfilter.py lines 41-51). -/
def stepFunctionKeys : List String :=
  ["opus_read", "filter", "concatenate", "subset", "train_ngram",
   "train_alignment", "score", "classify", "order_by_rank"]

/-- Loop body of `OpusFilter.execute_steps` (lines 55-60) starting at 0-based
step index `num`.  Returns the 0-based indices of the steps whose handler was
invoked, in order, together with the `KeyError` raised by
`self.step_functions[step['type']]` when a step of unknown type is reached. -/
def execute_steps_go (last : Option Nat) : Nat → List String → List Nat × Option String
  | _, [] => ([], none)
  | num, t :: rest =>
    if (match last with | none => false | some l => decide (num + 1 > l)) then
      ([], none)
    else if t ∈ stepFunctionKeys then
      let r := execute_steps_go last (num + 1) rest
      (num :: r.1, r.2)
    else
      ([], some ("KeyError: " ++ t))

/-- Embedding of `OpusFilter.execute_steps` (lines 53-60): run the handlers of the steps
with the given type strings, in configuration order, optionally stopping
after step `last` (1-based). -/
def execute_steps (types : List String) (last : Option Nat) : List Nat × Option String :=
  execute_steps_go last 0 types

/-- Python list indexing `l[i]` with negative-index support
(`IndexError` is `none`). -/
def pyGetItem (l : List α) (i : Int) : Option α :=
  if i < 0 then
    if (i + l.length : Int) < 0 then none else l.get? (i + l.length).toNat
  else l.get? i.toNat

/-- The step selected by `OpusFilter.execute_step` (lines 62-71):
`self.configuration['steps'][num if num < 0 else num - 1]`. -/
def execute_step_select (steps : List α) (num : Int) : Option α :=
  pyGetItem steps (if num < 0 then num else num - 1)

/-- Python `str.rstrip()`: remove trailing whitespace.  (Lean's
`Char.isWhitespace` covers space, tab, newline and carriage return; the other
Python whitespace code points do not occur in the properties below.) -/
def pyRstrip (s : String) : String :=
  ⟨(s.data.reverse.dropWhile Char.isWhitespace).reverse⟩

/-- Embedding of `OpusFilter.pair_generator` (lines 93-103).  The two files are lists of
line contents; iterating the source file yields its lines, and
`target_file.readline()` is read in lockstep, returning the empty string for
every read past the target's end.  The tokenizers returned by
`tokenization.get_tokenize` are abstract parameters. -/
def pair_generator (srcTok tgtTok : String → List String) :
    List String → List String → List (List String × List String)
  | [], _ => []
  | s :: src, tgt =>
    (srcTok (pyRstrip s), tgtTok (pyRstrip (tgt.headD ""))) ::
      pair_generator srcTok tgtTok src tgt.tail

/-- Embedding of `OpusFilter._get_total_lines` (lines 150-157): the number of lines of a
file, counted by enumerating it. -/
def get_total_lines (l : List String) : Nat := l.length

/-- Model of `sorted(indices, reverse=True)` used as a stack popped from its small end
(`remaining.pop()`, line 165/170): successive pops give the indices in
ascending order, so the stack is modelled as the ascending sort. -/
def sortAsc (l : List Nat) : List Nat := List.insertionSort (· ≤ ·) l

/-- The `for idx, item in tqdm(enumerate(iterable))` loop of
`OpusFilter._yield_subset` (lines 166-172): `idx` is the enumeration index,
`cur` the next wanted index, `remaining` the later wanted indices in
ascending order. -/
def yieldSubsetGo : List α → Nat → Nat → List Nat → List α
  | [], _, _, _ => []
  | item :: items, idx, cur, remaining =>
    if idx = cur then
      match remaining with
      | [] => [item]
      | c :: rest => item :: yieldSubsetGo items (idx + 1) c rest
    else
      yieldSubsetGo items (idx + 1) cur remaining

/-- Embedding of `OpusFilter._yield_subset` (lines 159-172): yield the items of `l` whose
enumeration index occurs in `indices` (`if not indices: return` handles the
empty index list). -/
def yield_subset (l : List α) (indices : List Nat) : List α :=
  match sortAsc indices with
  | [] => []
  | cur :: rest => yieldSubsetGo l 0 cur rest

/-- Contract of one `random.sample(range(n), k)` call (Python stdlib):
`k` unique indices below `n` when `k ≤ n`; `ValueError` when `k > n`. -/
def sampleOk (n k : Nat) (d : Except String (List Nat)) : Prop :=
  match d with
  | .ok l => k ≤ n ∧ l.Nodup ∧ l.length = k ∧ ∀ i ∈ l, i < n
  | .error _ => n < k

/-- The body of `OpusFilter.get_subset` after the existence check (lines
189-216; the skip check of lines 186-188 is modelled by `runStep` below).
Files are lists of lines; the successive `random.sample(range(total), size)`
calls are the parameters `draw1`, `draw2` (with `total` taken from the source
file, line 192); `random.shuffle` is the parameter `shuffle`.  Returns the
written files (name, lines) in write order and the raised error, if any. -/
def get_subset_step (size : Nat) (src tgt : List String) (shuffle_target : Bool)
    (draw1 draw2 : Except String (List Nat)) (shuffle : List String → List String) :
    List (String × List String) × Option String :=
  if shuffle_target then
    match draw1 with
    | .error e => ([], some e)
    | .ok s1 =>
      let srcOut := yield_subset src s1
      match draw2 with
      | .error e => ([("src_output", srcOut)], some e)
      | .ok s2 =>
        ([("src_output", srcOut), ("tgt_output", shuffle (yield_subset tgt s2))],
          none)
  else
    match draw1 with
    | .error e => ([], some e)
    | .ok s1 =>
      ([("src_output", yield_subset src s1), ("tgt_output", yield_subset tgt s1)],
        none)

/-- The nine step kinds of `self.step_functions` (lines 41-51). -/
inductive StepType where
  | opus_read
  | filter
  | concatenate
  | subset
  | train_ngram
  | train_alignment
  | score
  | classify
  | order_by_rank
deriving DecidableEq

/-- Whether a path string starts with `/` (is absolute). -/
def strStartsWithSlash (p : String) : Bool :=
  match p.data with
  | [] => false
  | c :: _ => c = '/'

/-- Whether a directory string ends with `/`. -/
def strEndsWithSlash (d : String) : Bool :=
  match d.data.getLast? with
  | some c => c = '/'
  | none => false

/-- Model of `os.path.join(d, p)` for POSIX paths: an absolute second argument wins,
an empty or slash-terminated first argument is prepended as is, otherwise
the parts are joined with a single `/`. -/
def osPathJoin (d p : String) : String :=
  if strStartsWithSlash p then p
  else if d = "" then p
  else if strEndsWithSlash d then d ++ p
  else d ++ "/" ++ p

/-- The format-string join (a `/` between directory and filename) used by
`OpusFilter.get_pairs` (lines 105-111). -/
def strFormatJoin (d p : String) : String := d ++ "/" ++ p

/-- The declared path-valued parameters of each step kind, as
(parameter name, declared path) pairs.  `P` looks up a scalar parameter,
`L` a list-valued one (`concatenate`'s `inputs`). -/
def stepPathParams (k : StepType) (P : String → String)
    (L : String → List String) : List (String × String) :=
  match k with
  | .opus_read =>
      [("src_output", P "src_output"), ("tgt_output", P "tgt_output")]
  | .filter =>
      [("src_input", P "src_input"), ("tgt_input", P "tgt_input"),
       ("src_output", P "src_output"), ("tgt_output", P "tgt_output")]
  | .concatenate =>
      ("output", P "output") :: (L "inputs").map (fun f => ("inputs", f))
  | .subset =>
      [("src_input", P "src_input"), ("tgt_input", P "tgt_input"),
       ("src_output", P "src_output"), ("tgt_output", P "tgt_output")]
  | .train_ngram =>
      [("data", P "data"), ("model", P "model")]
  | .train_alignment =>
      [("src_data", P "src_data"), ("tgt_data", P "tgt_data"),
       ("output", P "output")]
  | .score =>
      [("src_input", P "src_input"), ("tgt_input", P "tgt_input"),
       ("output", P "output")]
  | .classify => []
  | .order_by_rank =>
      [("input_src", P "input_src"), ("input_tgt", P "input_tgt"),
       ("input_ranks", P "input_ranks"), ("output_src", P "output_src"),
       ("output_tgt", P "output_tgt"), ("output_ranks", P "output_ranks")]

/-- The file path each handler actually opens (or hands to its collaborator)
for each declared path parameter, read off the handler bodies:
`os.path.join(self.output_dir, ...)` everywhere (lines 75-76, 115-116,
140, 146, 182-185, 220, 227-229, 239, 244-245, 253) except the
`'{}/{}'.format` join of `get_pairs` for `filter`/`score` inputs (lines
105-111) and `order_by_rank`, which passes the six parameters to `open`
unchanged (lines 297-302). -/
def stepOpenedPaths (k : StepType) (d : String) (P : String → String)
    (L : String → List String) : List (String × String) :=
  match k with
  | .opus_read =>
      [("src_output", osPathJoin d (P "src_output")),
       ("tgt_output", osPathJoin d (P "tgt_output"))]
  | .filter =>
      [("src_input", strFormatJoin d (P "src_input")),
       ("tgt_input", strFormatJoin d (P "tgt_input")),
       ("src_output", osPathJoin d (P "src_output")),
       ("tgt_output", osPathJoin d (P "tgt_output"))]
  | .concatenate =>
      ("output", osPathJoin d (P "output")) ::
        (L "inputs").map (fun f => ("inputs", osPathJoin d f))
  | .subset =>
      [("src_input", osPathJoin d (P "src_input")),
       ("tgt_input", osPathJoin d (P "tgt_input")),
       ("src_output", osPathJoin d (P "src_output")),
       ("tgt_output", osPathJoin d (P "tgt_output"))]
  | .train_ngram =>
      [("data", osPathJoin d (P "data")),
       ("model", osPathJoin d (P "model"))]
  | .train_alignment =>
      [("src_data", osPathJoin d (P "src_data")),
       ("tgt_data", osPathJoin d (P "tgt_data")),
       ("output", osPathJoin d (P "output"))]
  | .score =>
      [("src_input", strFormatJoin d (P "src_input")),
       ("tgt_input", strFormatJoin d (P "tgt_input")),
       ("output", osPathJoin d (P "output"))]
  | .classify => []
  | .order_by_rank =>
      [("input_src", P "input_src"), ("input_tgt", P "input_tgt"),
       ("input_ranks", P "input_ranks"), ("output_src", P "output_src"),
       ("output_tgt", P "output_tgt"), ("output_ranks", P "output_ranks")]

/-- Model of `os.path.isfile` over the set of existing files, modelled as a list of
paths. -/
def isfile (fs : List String) (p : String) : Bool := decide (p ∈ fs)

/-- Observable outcome of one handler invocation: the files existing
afterwards, whether the handler body past the skip check ran, and the files
it opened for writing. -/
structure StepRun where
  fs : List String
  handlerRan : Bool
  writes : List String
deriving DecidableEq

/-- The skip-check pattern guarding the handlers with two declared outputs
(`if not overwrite and os.path.isfile(out1) and os.path.isfile(out2)`,
lines 77-79, 117-119, 186-188): skip, else run the body, which materializes
`writes`. -/
def skipCheck2 (out1 out2 : String) (writes fs : List String)
    (overwrite : Bool) : StepRun :=
  if !overwrite && isfile fs out1 && isfile fs out2 then ⟨fs, false, []⟩
  else ⟨writes ++ fs, true, writes⟩

/-- The skip-check pattern guarding the handlers with one declared output
(lines 141-143, 221-223, 240-242, 254-256). -/
def skipCheck1 (out1 : String) (writes fs : List String)
    (overwrite : Bool) : StepRun :=
  if !overwrite && isfile fs out1 then ⟨fs, false, []⟩
  else ⟨writes ++ fs, true, writes⟩

/-- One invocation of the handler of step kind `k` at filesystem state `fs`:
the skip checks and written outputs of each handler (the outputs written by
the external collaborators `OpusRead`, `lm.train`, `make_priors` are the
declared output files the step materializes).  `classify` (lines 288-293)
and `order_by_rank` (lines 295-319) have no skip check and always run;
`order_by_rank` opens its three output parameters for writing unchanged. -/
def runStep (k : StepType) (d : String) (P : String → String)
    (fs : List String) (overwrite : Bool) : StepRun :=
  match k with
  | .opus_read =>
      skipCheck2 (osPathJoin d (P "src_output")) (osPathJoin d (P "tgt_output"))
        [osPathJoin d (P "src_output"), osPathJoin d (P "tgt_output")]
        fs overwrite
  | .filter =>
      skipCheck2 (osPathJoin d (P "src_output")) (osPathJoin d (P "tgt_output"))
        [osPathJoin d (P "src_output"), osPathJoin d (P "tgt_output")]
        fs overwrite
  | .concatenate =>
      skipCheck1 (osPathJoin d (P "output")) [osPathJoin d (P "output")]
        fs overwrite
  | .subset =>
      skipCheck2 (osPathJoin d (P "src_output")) (osPathJoin d (P "tgt_output"))
        [osPathJoin d (P "src_output"), osPathJoin d (P "tgt_output")]
        fs overwrite
  | .train_ngram =>
      skipCheck1 (osPathJoin d (P "model"))
        [osPathJoin d (P "data" ++ ".seg.gz"), osPathJoin d (P "model")]
        fs overwrite
  | .train_alignment =>
      skipCheck1 (osPathJoin d (P "output")) [osPathJoin d (P "output")]
        fs overwrite
  | .score =>
      skipCheck1 (osPathJoin d (P "output")) [osPathJoin d (P "output")]
        fs overwrite
  | .classify => ⟨fs, true, []⟩
  | .order_by_rank =>
      ⟨[P "output_src", P "output_tgt", P "output_ranks"] ++ fs, true,
        [P "output_src", P "output_tgt", P "output_ranks"]⟩

/-! A small heap with Python reference semantics, for the `score_data`
configuration rewrite (lines 251-281): `parameters['filters']` is a mutable
object graph shared with the caller, and the in-place path rewriting is
applied to the `copy.deepcopy` of it. -/

/-- A Python object: an immutable scalar (string or other), a list of
references, or a dict of references. -/
inductive PNode where
  | leaf : String → PNode
  | lst : List Nat → PNode
  | dct : List (String × Nat) → PNode
deriving DecidableEq

/-- The addresses a node refers to. -/
def PNode.refs : PNode → List Nat
  | .leaf _ => []
  | .lst as => as
  | .dct kvs => kvs.map (·.2)

/-- A heap of Python objects: an association list from addresses to nodes
(newest binding first) and the next fresh address. -/
structure Heap where
  mem : List (Nat × PNode)
  next : Nat
deriving DecidableEq

/-- Dereference an address. -/
def Heap.get (h : Heap) (a : Nat) : Option PNode :=
  match h.mem.find? (fun e => e.1 == a) with
  | some e => some e.2
  | none => none

/-- Mutate the object at address `a` in place. -/
def Heap.set (h : Heap) (a : Nat) (v : PNode) : Heap :=
  ⟨(a, v) :: h.mem, h.next⟩

/-- Allocate a fresh object. -/
def Heap.alloc (h : Heap) (v : PNode) : Heap × Nat :=
  (⟨(h.next, v) :: h.mem, h.next + 1⟩, h.next)

/-- Well-formedness: every stored address and every reference is below
`next`. -/
def Heap.wfb (h : Heap) : Bool :=
  h.mem.all (fun e => e.1 < h.next && e.2.refs.all (fun r => r < h.next))

/-- Model of `copy.deepcopy` (line 258): copy the object graph at `a` into
entirely fresh addresses (recursion bounded by `fuel`; Python additionally
preserves sharing inside the copy, which does not affect which addresses
are fresh). -/
def deepcopy : Nat → Heap → Nat → Heap × Nat
  | 0, h, _ => h.alloc (.leaf "")
  | fuel + 1, h, a =>
    match h.get a with
    | some (.leaf s) => h.alloc (.leaf s)
    | some (.lst as) =>
      let r := as.foldl (fun acc b =>
        let r1 := deepcopy fuel acc.1 b
        (r1.1, acc.2 ++ [r1.2])) ((h, []) : Heap × List Nat)
      r.1.alloc (.lst r.2)
    | some (.dct kvs) =>
      let r := kvs.foldl (fun acc kv =>
        let r1 := deepcopy fuel acc.1 kv.2
        (r1.1, acc.2 ++ [(kv.1, r1.2)])) ((h, []) : Heap × List (String × Nat))
      r.1.alloc (.dct r.2)
    | none => h.alloc (.leaf "")

/-- Dict lookup `d[k]` / `d.get(k)`: the address stored under key `k`. -/
def dictGetAddr (h : Heap) (a : Nat) (k : String) : Option Nat :=
  match h.get a with
  | some (.dct kvs) =>
    match kvs.find? (fun e => e.1 == k) with
    | some e => some e.2
    | none => none
  | _ => none

/-- Replace the binding of key `k` in an association list (Python dict
assignment on an existing key; appended when absent). -/
def setAssoc : List (String × Nat) → String → Nat → List (String × Nat)
  | [], k, v => [(k, v)]
  | (k2, v2) :: rest, k, v =>
    if k2 = k then (k, v) :: rest else (k2, v2) :: setAssoc rest k v

/-- In-place dict assignment `d[k] = v` at address `a`. -/
def dictSetKey (h : Heap) (a : Nat) (k : String) (v : Nat) : Heap :=
  match h.get a with
  | some (.dct kvs) => h.set a (.dct (setAssoc kvs k v))
  | _ => h

/-- In-place list assignment `l[i] = v` at address `a`. -/
def listSetIdx (h : Heap) (a : Nat) (i : Nat) (v : Nat) : Heap :=
  match h.get a with
  | some (.lst as) => h.set a (.lst (as.set i v))
  | _ => h

/-- Evaluation of `os.path.join(self.output_dir, <string at a>)`: reads the
string object and allocates the joined string (a fresh immutable object). -/
def allocJoined (h : Heap) (d : String) (a : Nat) : Heap × Nat :=
  match h.get a with
  | some (.leaf s) => h.alloc (.leaf (osPathJoin d s))
  | _ => h.alloc (.leaf "")

/-- One iteration of the interpolate loop (lines 269-271 / 276-278):
`interpolate[idx][0] = os.path.join(self.output_dir, interpolate[idx][0])`
on the entry object at address `e`. -/
def rewriteInterpEntry (d : String) (h : Heap) (e : Nat) : Heap :=
  match h.get e with
  | some (.lst as) =>
    match as.head? with
    | some fa =>
      let r := allocJoined h d fa
      listSetIdx r.1 e 0 r.2
    | none => h
  | _ => h

/-- The `for idx in range(len(...))` loop over an interpolate list at
address `a` (lines 269-271 / 276-278). -/
def rewriteInterpolate (d : String) (h : Heap) (a : Nat) : Heap :=
  match h.get a with
  | some (.lst entries) => entries.foldl (rewriteInterpEntry d) h
  | _ => h

/-- Rewrite of one `src_lm_params` / `tgt_lm_params` dict at address `p`
(lines 265-271 / 272-278): `params['filename'] = os.path.join(...)`, then
the interpolate loop when `params.get('interpolate')` is present. -/
def rewriteLmParams (d : String) (h : Heap) (p : Nat) : Heap :=
  let h1 :=
    match dictGetAddr h p "filename" with
    | some fa =>
      let r := allocJoined h d fa
      dictSetKey r.1 p "filename" r.2
    | none => h
  match dictGetAddr h1 p "interpolate" with
  | some ia => rewriteInterpolate d h1 ia
  | none => h1

/-- The `WordAlignFilter` branch (lines 261-263):
`f[filter_name]['priors'] = os.path.join(...)` when the `priors` key is
present in the parameter dict at address `p`. -/
def rewritePriors (d : String) (h : Heap) (p : Nat) : Heap :=
  match dictGetAddr h p "priors" with
  | some pa =>
    let r := allocJoined h d pa
    dictSetKey r.1 p "priors" r.2
  | none => h

/-- The `CrossEntropyFilter` branch (lines 264-278): rewrite
`src_lm_params` then `tgt_lm_params` of the parameter dict at address `p`
(a missing key, on which Python would raise `KeyError`, is a no-op here). -/
def rewriteCE (d : String) (h : Heap) (p : Nat) : Heap :=
  let h2 :=
    match dictGetAddr h p "src_lm_params" with
    | some sa => rewriteLmParams d h sa
    | none => h
  match dictGetAddr h2 p "tgt_lm_params" with
  | some ta => rewriteLmParams d h2 ta
  | none => h2

/-- The body of the `for f in filter_params` loop (lines 259-278) on one
filter configuration dict at address `f`: `filter_name` is the first key
(`next(iter(f.items()))[0]`), and the two `if filter_name == ...` branches
rewrite the path-valued parameters in place. -/
def rewriteFilter (d : String) (h : Heap) (f : Nat) : Heap :=
  match h.get f with
  | some (.dct ((fname, pAddr) :: _)) =>
    let h1 := if fname = "WordAlignFilter" then rewritePriors d h pAddr else h
    if fname = "CrossEntropyFilter" then rewriteCE d h1 pAddr else h1
  | _ => h

/-- The configuration rewrite of `OpusFilter.score_data` (lines 257-278):
`filter_params = copy.deepcopy(parameters['filters'])` followed by the
rewriting loop over the copied filter list.  Returns the final heap and the
address of the copy handed to `FilterPipeline.from_config`. -/
def score_rewrite (d : String) (h : Heap) (filtersAddr : Nat) (fuel : Nat) :
    Heap × Nat :=
  let c := deepcopy fuel h filtersAddr
  match c.1.get c.2 with
  | some (.lst fs) => (fs.foldl (rewriteFilter d) c.1, c.2)
  | _ => (c.1, c.2)

/-- A Python value read out of the heap as a tree (what the caller observes
of its configuration object). -/
inductive PyTree where
  | leaf : String → PyTree
  | lst : List PyTree → PyTree
  | dct : List (String × PyTree) → PyTree
  | broken : PyTree

/-- Read the full value at address `a` (recursion bounded by `fuel`). -/
def readTree (h : Heap) : Nat → Nat → PyTree
  | 0, _ => .broken
  | fuel + 1, a =>
    match h.get a with
    | some (.leaf s) => .leaf s
    | some (.lst as) => .lst (as.map (fun b => readTree h fuel b))
    | some (.dct kvs) => .dct (kvs.map (fun e => (e.1, readTree h fuel e.2)))
    | none => .broken

/-! Helper lemmas -/

theorem execute_steps_go_unknown (post : List String) (t : String)
    (ht : t ∉ stepFunctionKeys) :
    ∀ (pre : List String) (num : Nat), (∀ s ∈ pre, s ∈ stepFunctionKeys) →
      execute_steps_go none num (pre ++ t :: post) =
        (List.range' num pre.length, some ("KeyError: " ++ t))
  | [], num, _ => by
    simp [execute_steps_go, ht, List.range']
  | s :: pre, num, hpre => by
    have hs : s ∈ stepFunctionKeys := hpre s (by simp)
    have ih := execute_steps_go_unknown post t ht pre (num + 1)
      (fun x hx => hpre x (by simp [hx]))
    simp [execute_steps_go, hs, ih, List.range']

theorem headD_eq_getD_zero (l : List α) (d : α) : l.headD d = l.getD 0 d := by
  cases l <;> rfl

theorem filterMap_congr_mem {l : List α} {f g : α → Option β}
    (h : ∀ a ∈ l, f a = g a) : l.filterMap f = l.filterMap g := by
  induction l with
  | nil => rfl
  | cons a l ih =>
    rw [List.filterMap_cons, List.filterMap_cons, h a (by simp),
      ih (fun x hx => h x (by simp [hx]))]

theorem filterMap_some_eq_map (f : α → β) (l : List α) :
    l.filterMap (fun a => some (f a)) = l.map f := by
  induction l with
  | nil => rfl
  | cons a l ih => simp [List.filterMap_cons, ih]

theorem sorted_lt_of_le_nodup {l : List Nat} (h1 : l.Sorted (· ≤ ·))
    (h2 : l.Nodup) : l.Sorted (· < ·) :=
  (List.Pairwise.and h1 h2).imp (fun h => lt_of_le_of_ne h.1 h.2)

theorem sortAsc_sorted_le (l : List Nat) : (sortAsc l).Sorted (· ≤ ·) :=
  List.sorted_insertionSort _ l

theorem sortAsc_perm (l : List Nat) : (sortAsc l).Perm l :=
  List.perm_insertionSort _ l

theorem sortAsc_sorted_lt {l : List Nat} (h : l.Nodup) :
    (sortAsc l).Sorted (· < ·) :=
  sorted_lt_of_le_nodup (sortAsc_sorted_le l) ((sortAsc_perm l).nodup_iff.mpr h)

theorem yieldSubsetGo_eq : ∀ (l : List α) (idx cur : Nat) (rest : List Nat),
    (cur :: rest).Sorted (· < ·) → idx ≤ cur →
    yieldSubsetGo l idx cur rest =
      (cur :: rest).filterMap (fun i => l.get? (i - idx))
  | [], idx, cur, rest, _, _ =>
    (List.filterMap_eq_nil.mpr (fun a _ => by simp)).symm
  | item :: items, idx, cur, rest, hsorted, hle => by
    rcases List.pairwise_cons.mp hsorted with ⟨hcur, hrest⟩
    by_cases h : idx = cur
    · subst h
      cases rest with
      | nil => simp [yieldSubsetGo, List.filterMap_cons, Nat.sub_self]
      | cons c rest2 =>
        have hc : idx < c := hcur c (by simp)
        have ih := yieldSubsetGo_eq items (idx + 1) c rest2 hrest hc
        have hmem : ∀ i ∈ c :: rest2, idx < i := by
          intro i hi
          rcases List.mem_cons.mp hi with h1 | h1
          · subst h1; exact hc
          · exact lt_trans hc ((List.pairwise_cons.mp hrest).1 i h1)
        have hshift : (c :: rest2).filterMap
              (fun i => (item :: items).get? (i - idx)) =
            (c :: rest2).filterMap (fun i => items.get? (i - (idx + 1))) := by
          refine filterMap_congr_mem (fun i hi => ?_)
          have h3 : i - idx = (i - (idx + 1)) + 1 := by
            have := hmem i hi; omega
          rw [h3, List.get?_cons_succ]
        have hl : yieldSubsetGo (item :: items) idx idx (c :: rest2) =
            item :: yieldSubsetGo items (idx + 1) c rest2 := by
          simp [yieldSubsetGo]
        have hr : (idx :: c :: rest2).filterMap
              (fun i => (item :: items).get? (i - idx)) =
            item :: (c :: rest2).filterMap
              (fun i => (item :: items).get? (i - idx)) := by
          rw [List.filterMap_cons]
          simp [Nat.sub_self]
        rw [hl, ih, hr, hshift]
    · have hlt : idx < cur := lt_of_le_of_ne hle h
      have ih := yieldSubsetGo_eq items (idx + 1) cur rest hsorted hlt
      have hmem : ∀ i ∈ cur :: rest, idx < i := by
        intro i hi
        rcases List.mem_cons.mp hi with h1 | h1
        · subst h1; exact hlt
        · exact lt_trans hlt (hcur i h1)
      have hshift : (cur :: rest).filterMap
            (fun i => (item :: items).get? (i - idx)) =
          (cur :: rest).filterMap (fun i => items.get? (i - (idx + 1))) := by
        refine filterMap_congr_mem (fun i hi => ?_)
        have h3 : i - idx = (i - (idx + 1)) + 1 := by
          have := hmem i hi; omega
        rw [h3, List.get?_cons_succ]
      have hl : yieldSubsetGo (item :: items) idx cur rest =
          yieldSubsetGo items (idx + 1) cur rest := by
        simp [yieldSubsetGo, h]
      rw [hl, ih]
      exact hshift.symm

theorem yield_subset_eq_filterMap (l : List α) (indices : List Nat)
    (h : indices.Nodup) :
    yield_subset l indices = (sortAsc indices).filterMap (fun i => l.get? i) := by
  have hsorted := sortAsc_sorted_lt h
  cases hs : sortAsc indices with
  | nil => simp [yield_subset, hs]
  | cons cur rest =>
    rw [hs] at hsorted
    have h2 := yieldSubsetGo_eq l 0 cur rest hsorted (Nat.zero_le cur)
    simp [yield_subset, hs, h2]

theorem yield_subset_eq_map (l : List String) (indices : List Nat)
    (h : indices.Nodup) (hrange : ∀ i ∈ indices, i < l.length) :
    yield_subset l indices = (sortAsc indices).map (fun i => l.getD i "") := by
  rw [yield_subset_eq_filterMap l indices h, ← filterMap_some_eq_map]
  refine filterMap_congr_mem (fun i hi => ?_)
  have hlt : i < l.length := hrange i ((sortAsc_perm indices).mem_iff.mp hi)
  have hsome : l.get? i = some (l.get ⟨i, hlt⟩) := List.get?_eq_get hlt
  rw [hsome, List.getD_eq_get?, hsome]
  rfl

theorem getD_tail (l : List α) (i : Nat) (d : α) :
    l.tail.getD i d = l.getD (i + 1) d := by
  cases l <;> simp [List.getD]

theorem pair_generator_length (f g : String → List String) :
    ∀ (src tgt : List String), (pair_generator f g src tgt).length = src.length
  | [], _ => rfl
  | _ :: src, tgt => by
    simp [pair_generator, pair_generator_length f g src tgt.tail]

theorem pair_generator_get (f g : String → List String) :
    ∀ (src tgt : List String) (i : Nat), i < src.length →
      (pair_generator f g src tgt).get? i =
        some (f (pyRstrip (src.getD i "")), g (pyRstrip (tgt.getD i "")))
  | [], _, i, h => by simp at h
  | s :: src, tgt, 0, _ => by
    cases tgt <;> simp [pair_generator, List.getD]
  | s :: src, tgt, i + 1, h => by
    have ih := pair_generator_get f g src tgt.tail i (by simpa using h)
    simpa [pair_generator, getD_tail] using ih

theorem strFormatJoin_eq_osPathJoin (d p : String)
    (hp : strStartsWithSlash p = false) (hd : d ≠ "")
    (hds : strEndsWithSlash d = false) : strFormatJoin d p = osPathJoin d p := by
  rw [osPathJoin, if_neg (by simp [hp]), if_neg hd, if_neg (by simp [hds])]
  rfl

theorem skipCheck2_idem (o1 o2 : String) (w fs : List String)
    (h1 : o1 ∈ w) (h2 : o2 ∈ w) :
    skipCheck2 o1 o2 w (skipCheck2 o1 o2 w fs false).fs false =
      ⟨(skipCheck2 o1 o2 w fs false).fs, false, []⟩ := by
  by_cases hc : o1 ∈ fs ∧ o2 ∈ fs
  · simp [skipCheck2, isfile, hc.1, hc.2]
  · simp [skipCheck2, isfile, hc, h1, h2]

theorem skipCheck1_idem (o1 : String) (w fs : List String) (h1 : o1 ∈ w) :
    skipCheck1 o1 w (skipCheck1 o1 w fs false).fs false =
      ⟨(skipCheck1 o1 w fs false).fs, false, []⟩ := by
  by_cases hc : o1 ∈ fs
  · simp [skipCheck1, isfile, hc]
  · simp [skipCheck1, isfile, hc, h1]

theorem Heap.get_set_self (h : Heap) (a : Nat) (v : PNode) :
    (h.set a v).get a = some v := by
  simp [Heap.get, Heap.set, List.find?]

theorem Heap.get_set_ne (h : Heap) (a b : Nat) (v : PNode) (hne : b ≠ a) :
    (h.set a v).get b = h.get b := by
  simp only [Heap.get, Heap.set]
  rw [List.find?_cons_of_neg]
  simp [Ne.symm hne]

theorem Heap.set_next (h : Heap) (a : Nat) (v : PNode) :
    (h.set a v).next = h.next := rfl

theorem Heap.get_alloc_self (h : Heap) (v : PNode) :
    (h.alloc v).1.get h.next = some v := by
  simp [Heap.get, Heap.alloc, List.find?]

theorem Heap.get_alloc_ne (h : Heap) (v : PNode) (b : Nat) (hne : b ≠ h.next) :
    (h.alloc v).1.get b = h.get b := by
  simp only [Heap.get, Heap.alloc]
  rw [List.find?_cons_of_neg]
  simp [Ne.symm hne]

theorem Heap.alloc_next (h : Heap) (v : PNode) :
    (h.alloc v).1.next = h.next + 1 := rfl

theorem Heap.alloc_addr (h : Heap) (v : PNode) : (h.alloc v).2 = h.next := rfl

theorem wfb_get {h : Heap} (hwf : h.wfb = true) {b : Nat} {node : PNode}
    (hget : h.get b = some node) :
    b < h.next ∧ ∀ r ∈ node.refs, r < h.next := by
  rw [Heap.get] at hget
  cases hfind : h.mem.find? (fun e => e.1 == b) with
  | none => rw [hfind] at hget; exact absurd hget (by simp)
  | some e =>
    rw [hfind] at hget
    have he : e ∈ h.mem := List.mem_of_find?_eq_some hfind
    have hkey : e.1 = b := by
      have := List.find?_some hfind
      simpa using this
    have hall := (List.all_eq_true.mp hwf) e he
    rw [Bool.and_eq_true] at hall
    have hnode : e.2 = node := by
      have := hget; injection this
    refine ⟨?_, ?_⟩
    · rw [← hkey]; exact (by simpa using hall.1)
    · intro r hr
      have := (List.all_eq_true.mp hall.2) r (by rw [hnode]; exact hr)
      simpa using this

/-- Evolution of the heap during a copy phase starting at `h`: the fresh
counter grows, addresses already allocated keep their value, and every
reachable node is either an untouched old node or a fresh node whose
references are all fresh. -/
def Heap.evol (h h2 : Heap) : Prop :=
  h.next ≤ h2.next ∧ (∀ b, b < h.next → h2.get b = h.get b) ∧
  (∀ b node, h2.get b = some node →
    h.get b = some node ∨ (h.next ≤ b ∧ ∀ r ∈ node.refs, h.next ≤ r))

theorem evol_refl (h : Heap) : h.evol h :=
  ⟨le_refl _, fun _ _ => rfl, fun _ _ hget => .inl hget⟩

theorem evol_trans {h h1 h2 : Heap} (e1 : h.evol h1) (e2 : h1.evol h2) :
    h.evol h2 := by
  obtain ⟨n1, f1, g1⟩ := e1
  obtain ⟨n2, f2, g2⟩ := e2
  refine ⟨le_trans n1 n2, fun b hb => ?_, fun b node hget => ?_⟩
  · rw [f2 b (lt_of_lt_of_le hb n1), f1 b hb]
  · rcases g2 b node hget with hmid | ⟨hb, hr⟩
    · exact g1 b node hmid
    · exact .inr ⟨le_trans n1 hb, fun r hr2 => le_trans n1 (hr r hr2)⟩

theorem evol_alloc_of {h0 h : Heap} (v : PNode) (hev : h0.evol h)
    (hrefs : ∀ r ∈ v.refs, h0.next ≤ r) : h0.evol (h.alloc v).1 := by
  obtain ⟨n1, f1, g1⟩ := hev
  refine ⟨by rw [Heap.alloc_next]; omega, fun b hb => ?_, fun b node hget => ?_⟩
  · rw [Heap.get_alloc_ne h v b (by omega), f1 b hb]
  · by_cases hb : b = h.next
    · subst hb
      rw [Heap.get_alloc_self] at hget
      have hv : v = node := by injection hget
      subst hv
      exact .inr ⟨n1, hrefs⟩
    · rw [Heap.get_alloc_ne h v b hb] at hget
      exact g1 b node hget

theorem deepcopy_evol : ∀ (fuel : Nat) (h : Heap) (a : Nat),
    h.evol (deepcopy fuel h a).1 ∧ h.next ≤ (deepcopy fuel h a).2
  | 0, h, a => by
    constructor
    · exact evol_alloc_of _ (evol_refl h) (by simp [PNode.refs])
    · simp [deepcopy, Heap.alloc_addr]
  | fuel + 1, h, a => by
    cases hget : h.get a with
    | none =>
      simp only [deepcopy, hget]
      exact ⟨evol_alloc_of _ (evol_refl h) (by simp [PNode.refs]),
        le_of_eq (Heap.alloc_addr h _).symm⟩
    | some node =>
      cases node with
      | leaf s =>
        simp only [deepcopy, hget]
        exact ⟨evol_alloc_of _ (evol_refl h) (by simp [PNode.refs]),
          le_of_eq (Heap.alloc_addr h _).symm⟩
      | lst as =>
        have hfold : ∀ (l : List Nat) (acc : Heap × List Nat),
            acc.1.evol (l.foldl (fun acc b =>
              ((deepcopy fuel acc.1 b).1, acc.2 ++ [(deepcopy fuel acc.1 b).2]))
              acc).1 ∧
            ∀ x ∈ (l.foldl (fun acc b =>
              ((deepcopy fuel acc.1 b).1, acc.2 ++ [(deepcopy fuel acc.1 b).2]))
              acc).2, x ∈ acc.2 ∨ acc.1.next ≤ x := by
          intro l
          induction l with
          | nil => exact fun acc => ⟨evol_refl _, fun x hx => .inl hx⟩
          | cons b bs ihl =>
            intro acc
            simp only [List.foldl_cons]
            obtain ⟨hev1, haddr1⟩ := deepcopy_evol fuel acc.1 b
            obtain ⟨hev2, hmem2⟩ :=
              ihl ((deepcopy fuel acc.1 b).1, acc.2 ++ [(deepcopy fuel acc.1 b).2])
            refine ⟨evol_trans hev1 hev2, fun x hx => ?_⟩
            rcases hmem2 x hx with hx2 | hx2
            · rcases List.mem_append.mp hx2 with h3 | h3
              · exact .inl h3
              · right
                have : x = (deepcopy fuel acc.1 b).2 := by simpa using h3
                omega
            · right
              have hx3 : (deepcopy fuel acc.1 b).1.next ≤ x := hx2
              have := hev1.1
              omega
        simp only [deepcopy, hget]
        obtain ⟨hev, hmem⟩ := hfold as (h, [])
        constructor
        · exact evol_alloc_of _ hev
            (by
              intro r hr
              rcases hmem r (by simpa [PNode.refs] using hr) with h3 | h3
              · simp at h3
              · exact h3)
        · rw [Heap.alloc_addr]
          exact hev.1
      | dct kvs =>
        have hfold : ∀ (l : List (String × Nat)) (acc : Heap × List (String × Nat)),
            acc.1.evol (l.foldl (fun acc kv =>
              ((deepcopy fuel acc.1 kv.2).1, acc.2 ++ [(kv.1, (deepcopy fuel acc.1 kv.2).2)]))
              acc).1 ∧
            ∀ x ∈ (l.foldl (fun acc kv =>
              ((deepcopy fuel acc.1 kv.2).1, acc.2 ++ [(kv.1, (deepcopy fuel acc.1 kv.2).2)]))
              acc).2, x ∈ acc.2 ∨ acc.1.next ≤ x.2 := by
          intro l
          induction l with
          | nil => exact fun acc => ⟨evol_refl _, fun x hx => .inl hx⟩
          | cons b bs ihl =>
            intro acc
            simp only [List.foldl_cons]
            obtain ⟨hev1, haddr1⟩ := deepcopy_evol fuel acc.1 b.2
            obtain ⟨hev2, hmem2⟩ :=
              ihl ((deepcopy fuel acc.1 b.2).1,
                acc.2 ++ [(b.1, (deepcopy fuel acc.1 b.2).2)])
            refine ⟨evol_trans hev1 hev2, fun x hx => ?_⟩
            rcases hmem2 x hx with hx2 | hx2
            · rcases List.mem_append.mp hx2 with h3 | h3
              · exact .inl h3
              · right
                have : x = (b.1, (deepcopy fuel acc.1 b.2).2) := by simpa using h3
                rw [this]
                exact haddr1
            · right
              have hx3 : (deepcopy fuel acc.1 b.2).1.next ≤ x.2 := hx2
              have := hev1.1
              omega
        simp only [deepcopy, hget]
        obtain ⟨hev, hmem⟩ := hfold kvs (h, [])
        constructor
        · exact evol_alloc_of _ hev
            (by
              intro r hr
              simp only [PNode.refs, List.mem_map] at hr
              obtain ⟨e, he, rfl⟩ := hr
              rcases hmem e he with h3 | h3
              · simp at h3
              · exact h3)
        · rw [Heap.alloc_addr]
          exact hev.1

/-- Agreement of two heaps on all addresses below `n0` (the caller's portion
of the heap). -/
def frameBelow (n0 : Nat) (h h2 : Heap) : Prop :=
  ∀ b, b < n0 → h2.get b = h.get b

theorem frameBelow_refl (n0 : Nat) (h : Heap) : frameBelow n0 h h :=
  fun _ _ => rfl

theorem frameBelow_trans {n0 : Nat} {h h1 h2 : Heap}
    (f1 : frameBelow n0 h h1) (f2 : frameBelow n0 h1 h2) :
    frameBelow n0 h h2 :=
  fun b hb => (f2 b hb).trans (f1 b hb)

/-- Invariant of the mutation phase: the fresh counter stays at or above
`n0` and every node at an address `≥ n0` references only addresses `≥ n0`
(the copy's region is closed, so mutations starting there stay there). -/
def mutOk (n0 : Nat) (h : Heap) : Prop :=
  n0 ≤ h.next ∧
  ∀ b node, n0 ≤ b → h.get b = some node → ∀ r ∈ node.refs, n0 ≤ r

theorem mutOk_set {n0 t : Nat} {h : Heap} (v : PNode) (hok : mutOk n0 h)
    (ht : n0 ≤ t) (hrefs : ∀ r ∈ v.refs, n0 ≤ r) :
    mutOk n0 (h.set t v) ∧ frameBelow n0 h (h.set t v) := by
  refine ⟨⟨by rw [Heap.set_next]; exact hok.1, fun b node hb hget => ?_⟩,
    fun b hb => ?_⟩
  · by_cases hbt : b = t
    · subst hbt
      rw [Heap.get_set_self] at hget
      have : v = node := by injection hget
      subst this
      exact hrefs
    · rw [Heap.get_set_ne h t b v hbt] at hget
      exact hok.2 b node hb hget
  · exact Heap.get_set_ne h t b v (by omega)

theorem mutOk_alloc {n0 : Nat} {h : Heap} (v : PNode) (hok : mutOk n0 h)
    (hrefs : ∀ r ∈ v.refs, n0 ≤ r) :
    mutOk n0 (h.alloc v).1 ∧ frameBelow n0 h (h.alloc v).1 ∧
      n0 ≤ (h.alloc v).2 := by
  have hn := hok.1
  refine ⟨⟨by rw [Heap.alloc_next]; omega, fun b node hb hget => ?_⟩,
    fun b hb => ?_, by rw [Heap.alloc_addr]; exact hn⟩
  · by_cases hbt : b = h.next
    · subst hbt
      rw [Heap.get_alloc_self] at hget
      have : v = node := by injection hget
      subst this
      exact hrefs
    · rw [Heap.get_alloc_ne h v b hbt] at hget
      exact hok.2 b node hb hget
  · exact Heap.get_alloc_ne h v b (by omega)

theorem dictGetAddr_high {n0 t : Nat} {h : Heap} {k : String} {r : Nat}
    (hok : mutOk n0 h) (ht : n0 ≤ t)
    (hget : dictGetAddr h t k = some r) : n0 ≤ r := by
  cases hnode : h.get t with
  | none =>
    rw [dictGetAddr, hnode] at hget
    exact absurd hget (by simp)
  | some node =>
    cases node with
    | leaf s =>
      rw [dictGetAddr, hnode] at hget
      exact absurd hget (by simp)
    | lst as =>
      rw [dictGetAddr, hnode] at hget
      exact absurd hget (by simp)
    | dct kvs =>
      have hval : dictGetAddr h t k =
          match kvs.find? (fun e => e.1 == k) with
          | some e => some e.2
          | none => none := by
        rw [dictGetAddr, hnode]
      rw [hval] at hget
      cases hfind : kvs.find? (fun e => e.1 == k) with
      | none =>
        rw [hfind] at hget
        exact absurd hget (by simp)
      | some e =>
        rw [hfind] at hget
        have he : e ∈ kvs := List.mem_of_find?_eq_some hfind
        have hr : e.2 ∈ (PNode.dct kvs).refs := by
          simp only [PNode.refs]
          exact List.mem_map_of_mem (·.2) he
        have hhi := hok.2 t _ ht hnode e.2 hr
        have he2 : some e.2 = some r := hget
        have he3 : e.2 = r := by injection he2
        omega

theorem allocJoined_spec {n0 : Nat} {h : Heap} (d : String) (a : Nat)
    (hok : mutOk n0 h) :
    mutOk n0 (allocJoined h d a).1 ∧ frameBelow n0 h (allocJoined h d a).1 ∧
      n0 ≤ (allocJoined h d a).2 := by
  rw [allocJoined]
  cases hget : h.get a with
  | none => exact mutOk_alloc _ hok (by simp [PNode.refs])
  | some node =>
    cases node with
    | leaf s => exact mutOk_alloc _ hok (by simp [PNode.refs])
    | lst as => exact mutOk_alloc _ hok (by simp [PNode.refs])
    | dct kvs => exact mutOk_alloc _ hok (by simp [PNode.refs])

theorem setAssoc_mem : ∀ (kvs : List (String × Nat)) (k : String) (v : Nat)
    (e : String × Nat), e ∈ setAssoc kvs k v → e ∈ kvs ∨ e = (k, v)
  | [], k, v, e => by
    intro he
    simp [setAssoc] at he
    exact .inr he
  | (k2, v2) :: rest, k, v, e => by
    intro he
    rw [setAssoc] at he
    by_cases hk : k2 = k
    · rw [if_pos hk] at he
      rcases List.mem_cons.mp he with h1 | h1
      · exact .inr h1
      · exact .inl (List.mem_cons_of_mem _ h1)
    · rw [if_neg hk] at he
      rcases List.mem_cons.mp he with h1 | h1
      · exact .inl (h1 ▸ List.mem_cons_self _ _)
      · rcases setAssoc_mem rest k v e h1 with h2 | h2
        · exact .inl (List.mem_cons_of_mem _ h2)
        · exact .inr h2

theorem dictSetKey_spec {n0 t v : Nat} {h : Heap} (k : String)
    (hok : mutOk n0 h) (ht : n0 ≤ t) (hv : n0 ≤ v) :
    mutOk n0 (dictSetKey h t k v) ∧ frameBelow n0 h (dictSetKey h t k v) := by
  rw [dictSetKey]
  cases hget : h.get t with
  | none => exact ⟨hok, frameBelow_refl n0 h⟩
  | some node =>
    cases node with
    | leaf s => exact ⟨hok, frameBelow_refl n0 h⟩
    | lst as => exact ⟨hok, frameBelow_refl n0 h⟩
    | dct kvs =>
      refine mutOk_set _ hok ht ?_
      intro r hr
      simp only [PNode.refs, List.mem_map] at hr
      obtain ⟨e, he, rfl⟩ := hr
      rcases setAssoc_mem kvs k v e he with h1 | h1
      · exact hok.2 t _ ht hget e.2
          (by simp only [PNode.refs]; exact List.mem_map_of_mem (·.2) h1)
      · rw [h1]
        exact hv

theorem listSetIdx_spec {n0 t v : Nat} {h : Heap} (i : Nat)
    (hok : mutOk n0 h) (ht : n0 ≤ t) (hv : n0 ≤ v) :
    mutOk n0 (listSetIdx h t i v) ∧ frameBelow n0 h (listSetIdx h t i v) := by
  rw [listSetIdx]
  cases hget : h.get t with
  | none => exact ⟨hok, frameBelow_refl n0 h⟩
  | some node =>
    cases node with
    | leaf s => exact ⟨hok, frameBelow_refl n0 h⟩
    | dct kvs => exact ⟨hok, frameBelow_refl n0 h⟩
    | lst as =>
      refine mutOk_set _ hok ht ?_
      intro r hr
      simp only [PNode.refs] at hr
      rcases List.mem_or_eq_of_mem_set hr with h1 | h1
      · exact hok.2 t _ ht hget r (by simpa [PNode.refs] using h1)
      · rw [h1]
        exact hv

theorem rewriteInterpEntry_spec (d : String) {n0 e : Nat} {h : Heap}
    (hok : mutOk n0 h) (he : n0 ≤ e) :
    mutOk n0 (rewriteInterpEntry d h e) ∧
      frameBelow n0 h (rewriteInterpEntry d h e) := by
  cases hget : h.get e with
  | none =>
    rw [rewriteInterpEntry, hget]
    exact ⟨hok, frameBelow_refl n0 h⟩
  | some node =>
    cases node with
    | leaf s =>
      rw [rewriteInterpEntry, hget]
      exact ⟨hok, frameBelow_refl n0 h⟩
    | dct kvs =>
      rw [rewriteInterpEntry, hget]
      exact ⟨hok, frameBelow_refl n0 h⟩
    | lst as =>
      have hval : rewriteInterpEntry d h e =
          match as.head? with
          | some fa => listSetIdx (allocJoined h d fa).1 e 0 (allocJoined h d fa).2
          | none => h := by
        rw [rewriteInterpEntry, hget]
      rw [hval]
      cases hhead : as.head? with
      | none => exact ⟨hok, frameBelow_refl n0 h⟩
      | some fa =>
        obtain ⟨hok1, hfr1, haddr1⟩ := allocJoined_spec d fa hok
        obtain ⟨hok2, hfr2⟩ := listSetIdx_spec 0 hok1 he haddr1
        exact ⟨hok2, frameBelow_trans hfr1 hfr2⟩

theorem foldl_mutOk (n0 : Nat) (op : Heap → Nat → Heap)
    (hop : ∀ (h : Heap) (t : Nat), mutOk n0 h → n0 ≤ t →
      mutOk n0 (op h t) ∧ frameBelow n0 h (op h t)) :
    ∀ (l : List Nat) (h : Heap), mutOk n0 h → (∀ t ∈ l, n0 ≤ t) →
      mutOk n0 (l.foldl op h) ∧ frameBelow n0 h (l.foldl op h)
  | [], h, hok, _ => ⟨hok, frameBelow_refl n0 h⟩
  | t :: ts, h, hok, hl => by
    rw [List.foldl_cons]
    obtain ⟨hok1, hfr1⟩ := hop h t hok (hl t (by simp))
    obtain ⟨hok2, hfr2⟩ := foldl_mutOk n0 op hop ts (op h t) hok1
      (fun x hx => hl x (by simp [hx]))
    exact ⟨hok2, frameBelow_trans hfr1 hfr2⟩

theorem rewriteInterpolate_spec (d : String) {n0 a : Nat} {h : Heap}
    (hok : mutOk n0 h) (ha : n0 ≤ a) :
    mutOk n0 (rewriteInterpolate d h a) ∧
      frameBelow n0 h (rewriteInterpolate d h a) := by
  rw [rewriteInterpolate]
  cases hget : h.get a with
  | none => exact ⟨hok, frameBelow_refl n0 h⟩
  | some node =>
    cases node with
    | leaf s => exact ⟨hok, frameBelow_refl n0 h⟩
    | dct kvs => exact ⟨hok, frameBelow_refl n0 h⟩
    | lst entries =>
      refine foldl_mutOk n0 (rewriteInterpEntry d)
        (fun h2 t hok2 ht => rewriteInterpEntry_spec d hok2 ht)
        entries h hok ?_
      exact hok.2 a _ ha hget

theorem rewriteLmParams_spec (d : String) {n0 p : Nat} {h : Heap}
    (hok : mutOk n0 h) (hp : n0 ≤ p) :
    mutOk n0 (rewriteLmParams d h p) ∧
      frameBelow n0 h (rewriteLmParams d h p) := by
  rw [rewriteLmParams]
  have step1 : ∀ (h1 : Heap), mutOk n0 h1 → frameBelow n0 h h1 →
      mutOk n0 (match dictGetAddr h1 p "interpolate" with
        | some ia => rewriteInterpolate d h1 ia
        | none => h1) ∧
      frameBelow n0 h (match dictGetAddr h1 p "interpolate" with
        | some ia => rewriteInterpolate d h1 ia
        | none => h1) := by
    intro h1 hok1 hfr1
    cases hint : dictGetAddr h1 p "interpolate" with
    | none => exact ⟨hok1, hfr1⟩
    | some ia =>
      obtain ⟨hok2, hfr2⟩ :=
        rewriteInterpolate_spec d hok1 (dictGetAddr_high hok1 hp hint)
      exact ⟨hok2, frameBelow_trans hfr1 hfr2⟩
  cases hfn : dictGetAddr h p "filename" with
  | none => exact step1 h hok (frameBelow_refl n0 h)
  | some fa =>
    obtain ⟨hok1, hfr1, haddr1⟩ := allocJoined_spec d fa hok
    obtain ⟨hok2, hfr2⟩ := dictSetKey_spec "filename" hok1 hp haddr1
    exact step1 _ hok2 (frameBelow_trans hfr1 hfr2)

theorem rewritePriors_spec (d : String) {n0 p : Nat} {h : Heap}
    (hok : mutOk n0 h) (hp : n0 ≤ p) :
    mutOk n0 (rewritePriors d h p) ∧
      frameBelow n0 h (rewritePriors d h p) := by
  rw [rewritePriors]
  cases hpr : dictGetAddr h p "priors" with
  | none => exact ⟨hok, frameBelow_refl n0 h⟩
  | some pa =>
    obtain ⟨hok1, hfr1, haddr1⟩ := allocJoined_spec d pa hok
    obtain ⟨hok2, hfr2⟩ := dictSetKey_spec "priors" hok1 hp haddr1
    exact ⟨hok2, frameBelow_trans hfr1 hfr2⟩

theorem rewriteCE_spec (d : String) {n0 p : Nat} {h : Heap}
    (hok : mutOk n0 h) (hp : n0 ≤ p) :
    mutOk n0 (rewriteCE d h p) ∧ frameBelow n0 h (rewriteCE d h p) := by
  rw [rewriteCE]
  have step1 : mutOk n0 (match dictGetAddr h p "src_lm_params" with
      | some sa => rewriteLmParams d h sa
      | none => h) ∧
    frameBelow n0 h (match dictGetAddr h p "src_lm_params" with
      | some sa => rewriteLmParams d h sa
      | none => h) := by
    cases hsrc : dictGetAddr h p "src_lm_params" with
    | none => exact ⟨hok, frameBelow_refl n0 h⟩
    | some sa =>
      exact rewriteLmParams_spec d hok (dictGetAddr_high hok hp hsrc)
  obtain ⟨hok1, hfr1⟩ := step1
  cases htgt : dictGetAddr (match dictGetAddr h p "src_lm_params" with
      | some sa => rewriteLmParams d h sa
      | none => h) p "tgt_lm_params" with
  | none => exact ⟨hok1, hfr1⟩
  | some ta =>
    obtain ⟨hok2, hfr2⟩ :=
      rewriteLmParams_spec d hok1 (dictGetAddr_high hok1 hp htgt)
    exact ⟨hok2, frameBelow_trans hfr1 hfr2⟩

theorem rewriteFilter_spec (d : String) {n0 f : Nat} {h : Heap}
    (hok : mutOk n0 h) (hf : n0 ≤ f) :
    mutOk n0 (rewriteFilter d h f) ∧
      frameBelow n0 h (rewriteFilter d h f) := by
  cases hget : h.get f with
  | none =>
    rw [rewriteFilter, hget]
    exact ⟨hok, frameBelow_refl n0 h⟩
  | some node =>
    cases node with
    | leaf s =>
      rw [rewriteFilter, hget]
      exact ⟨hok, frameBelow_refl n0 h⟩
    | lst as =>
      rw [rewriteFilter, hget]
      exact ⟨hok, frameBelow_refl n0 h⟩
    | dct kvs =>
      cases kvs with
      | nil =>
        rw [rewriteFilter, hget]
        exact ⟨hok, frameBelow_refl n0 h⟩
      | cons kv rest =>
        obtain ⟨k1, p1⟩ := kv
        have hp : n0 ≤ p1 := hok.2 f _ hf hget p1
          (by simp only [PNode.refs, List.map_cons]; exact List.mem_cons_self _ _)
        have hval : rewriteFilter d h f =
            (if k1 = "CrossEntropyFilter" then
              rewriteCE d
                (if k1 = "WordAlignFilter" then rewritePriors d h p1 else h) p1
            else
              (if k1 = "WordAlignFilter" then rewritePriors d h p1 else h)) := by
          rw [rewriteFilter, hget]
        rw [hval]
        have step1 : mutOk n0
              (if k1 = "WordAlignFilter" then rewritePriors d h p1 else h) ∧
            frameBelow n0 h
              (if k1 = "WordAlignFilter" then rewritePriors d h p1 else h) := by
          by_cases hw : k1 = "WordAlignFilter"
          · rw [if_pos hw]; exact rewritePriors_spec d hok hp
          · rw [if_neg hw]; exact ⟨hok, frameBelow_refl n0 h⟩
        obtain ⟨hok1, hfr1⟩ := step1
        by_cases hce : k1 = "CrossEntropyFilter"
        · rw [if_pos hce]
          obtain ⟨hok2, hfr2⟩ := rewriteCE_spec d hok1 hp
          exact ⟨hok2, frameBelow_trans hfr1 hfr2⟩
        · rw [if_neg hce]
          exact ⟨hok1, hfr1⟩

/-- Addresses below `n0` reference only addresses below `n0` (the caller's
object graph is self-contained). -/
def lowClosed (n0 : Nat) (h : Heap) : Prop :=
  ∀ b node, b < n0 → h.get b = some node → ∀ r ∈ node.refs, r < n0

theorem wfb_lowClosed {h : Heap} (hwf : h.wfb = true) : lowClosed h.next h :=
  fun _ _ _ hget => (wfb_get hwf hget).2

theorem readTree_frame {n0 : Nat} {h h2 : Heap} (hframe : frameBelow n0 h h2)
    (hlow : lowClosed n0 h) :
    ∀ (fuel a : Nat), a < n0 → readTree h2 fuel a = readTree h fuel a
  | 0, _, _ => rfl
  | fuel + 1, a, ha => by
    have hfr := hframe a ha
    cases hget : h.get a with
    | none => simp only [readTree, hfr, hget]
    | some node =>
      cases node with
      | leaf s => simp only [readTree, hfr, hget]
      | lst as =>
        simp only [readTree, hfr, hget]
        congr 1
        exact List.map_congr_left
          (fun b hb => readTree_frame hframe hlow fuel b (hlow a _ ha hget b hb))
      | dct kvs =>
        simp only [readTree, hfr, hget]
        congr 1
        refine List.map_congr_left (fun e he => ?_)
        have he2 : e.2 < n0 := hlow a _ ha hget e.2
          (by simp only [PNode.refs]; exact List.mem_map_of_mem (·.2) he)
        rw [readTree_frame hframe hlow fuel e.2 he2]

/-! Claim theorems -/

/-- C1 counterexample: sorting src=["A","B","C"] with rank file ["3","1","2"]
in non-increasing text order of rank does NOT produce the source order
["C","A","B"] claimed by the spec. -/
theorem C1_counterexample :
    (order_by_rank ["A", "B", "C"] ["x", "y", "z"] ["3", "1", "2"]).1 ≠
      ["C", "A", "B"] := by decide

/-- C1 (amended): for source lines ["A","B","C"] paired with rank lines
["3","1","2"], sorting rows in non-increasing order of the rank field
compared as text produces the source output order ["A","C","B"] (rank "3"
stays with "A", "2" with "C", "1" with "B"). -/
theorem C1_order_by_rank_concrete :
    order_by_rank ["A", "B", "C"] ["x", "y", "z"] ["3", "1", "2"] =
      (["A", "C", "B"], ["x", "z", "y"], ["3", "2", "1"]) := by decide

/-- C2 counterexample: in the configuration with step types
["filter", "bogus"], the step kind "bogus" is unknown, yet the handler of
step 0 (the preceding "filter" step) is invoked before the error is raised:
the claim that the error precedes the handler of every step in the list is
false. -/
theorem C2_counterexample :
    "bogus" ∉ stepFunctionKeys ∧ "filter" ∈ stepFunctionKeys ∧
      (execute_steps ["filter", "bogus"] none).1 ≠ [] := by decide

/-- C2 (amended): executing the full pipeline of a configuration whose step
list is known steps followed by a step of unknown kind raises the fatal
`KeyError` when the unknown step is reached, before that step's handler (and
any later step) runs; the handlers of all steps preceding the unknown one
have already been invoked, in order. -/
theorem C2_execute_steps_abort (pre : List String) (t : String) (post : List String)
    (hpre : ∀ s ∈ pre, s ∈ stepFunctionKeys) (ht : t ∉ stepFunctionKeys) :
    execute_steps (pre ++ t :: post) none =
      (List.range pre.length, some ("KeyError: " ++ t)) := by
  rw [execute_steps, execute_steps_go_unknown post t ht pre 0 hpre,
    List.range_eq_range']

/-- Witness for C2: concrete run of `execute_steps` on ["filter", "bogus"]. -/
theorem C2_execute_steps_abort_witness :
    execute_steps ["filter", "bogus"] none =
      (List.range 1, some ("KeyError: " ++ "bogus")) :=
  C2_execute_steps_abort ["filter"] "bogus" [] (by decide) (by decide)

/-- C3 counterexample: the order_by_rank step has no skip check — invoked a
second time with overwrite disabled and its outputs already existing, its
handler runs again and re-opens all three output files for writing. -/
theorem C3_counterexample :
    (runStep .order_by_rank "wd" (fun _ => "f.txt")
        (runStep .order_by_rank "wd" (fun _ => "f.txt") [] false).fs
        false).handlerRan = true ∧
    (runStep .order_by_rank "wd" (fun _ => "f.txt")
        (runStep .order_by_rank "wd" (fun _ => "f.txt") [] false).fs
        false).writes ≠ [] := by decide

/-- C3 (amended): for every step kind except classify and order_by_rank,
invoking the step a second time with the overwrite flag disabled finds the
declared outputs produced by the first invocation already existing and skips:
the handler is not invoked, nothing is written, and the filesystem is
unchanged. -/
theorem C3_second_invocation_skips (k : StepType) (d : String)
    (P : String → String) (fs : List String)
    (hk1 : k ≠ .classify) (hk2 : k ≠ .order_by_rank) :
    runStep k d P (runStep k d P fs false).fs false =
      ⟨(runStep k d P fs false).fs, false, []⟩ := by
  cases k with
  | classify => exact absurd rfl hk1
  | order_by_rank => exact absurd rfl hk2
  | opus_read => exact skipCheck2_idem _ _ _ fs (by simp) (by simp)
  | filter => exact skipCheck2_idem _ _ _ fs (by simp) (by simp)
  | concatenate => exact skipCheck1_idem _ _ fs (by simp)
  | subset => exact skipCheck2_idem _ _ _ fs (by simp) (by simp)
  | train_ngram => exact skipCheck1_idem _ _ fs (by simp)
  | train_alignment => exact skipCheck1_idem _ _ fs (by simp)
  | score => exact skipCheck1_idem _ _ fs (by simp)

/-- Witness for C3: a second filter step invocation on the files the first
one created. -/
theorem C3_second_invocation_skips_witness :
    runStep .filter "wd" (fun n => n ++ ".txt")
        (runStep .filter "wd" (fun n => n ++ ".txt") [] false).fs false =
      ⟨(runStep .filter "wd" (fun n => n ++ ".txt") [] false).fs, false, []⟩ :=
  C3_second_invocation_skips .filter "wd" (fun n => n ++ ".txt") []
    (by decide) (by decide)

/-- C4 counterexample: order_by_rank passes its six path parameters to
`open` unchanged instead of resolving them against the working directory. -/
theorem C4_counterexample :
    stepOpenedPaths .order_by_rank "wd" (fun _ => "f.txt") (fun _ => []) ≠
      (stepPathParams .order_by_rank (fun _ => "f.txt") (fun _ => [])).map
        (fun np => (np.1, osPathJoin "wd" np.2)) := by decide

/-- C4 (amended): for every step kind except order_by_rank, every declared
input and output file path in the step's parameters is resolved relative to
the configured working directory (via `os.path.join`, or the equivalent
`'{}/{}'` format join for relative paths) before the file is opened. -/
theorem C4_paths_resolved (k : StepType) (d : String) (P : String → String)
    (L : String → List String) (hk : k ≠ .order_by_rank)
    (hp : ∀ np ∈ stepPathParams k P L, strStartsWithSlash np.2 = false)
    (hd : d ≠ "") (hds : strEndsWithSlash d = false) :
    stepOpenedPaths k d P L =
      (stepPathParams k P L).map (fun np => (np.1, osPathJoin d np.2)) := by
  cases k with
  | order_by_rank => exact absurd rfl hk
  | opus_read => simp [stepOpenedPaths, stepPathParams]
  | filter =>
    have h1 := strFormatJoin_eq_osPathJoin d (P "src_input")
      (hp ("src_input", P "src_input") (by simp [stepPathParams])) hd hds
    have h2 := strFormatJoin_eq_osPathJoin d (P "tgt_input")
      (hp ("tgt_input", P "tgt_input") (by simp [stepPathParams])) hd hds
    simp [stepOpenedPaths, stepPathParams, h1, h2]
  | concatenate => simp [stepOpenedPaths, stepPathParams]
  | subset => simp [stepOpenedPaths, stepPathParams]
  | train_ngram => simp [stepOpenedPaths, stepPathParams]
  | train_alignment => simp [stepOpenedPaths, stepPathParams]
  | score =>
    have h1 := strFormatJoin_eq_osPathJoin d (P "src_input")
      (hp ("src_input", P "src_input") (by simp [stepPathParams])) hd hds
    have h2 := strFormatJoin_eq_osPathJoin d (P "tgt_input")
      (hp ("tgt_input", P "tgt_input") (by simp [stepPathParams])) hd hds
    simp [stepOpenedPaths, stepPathParams, h1, h2]
  | classify => simp [stepOpenedPaths, stepPathParams]

/-- Witness for C4: a subset step with relative paths and working directory
"wd". -/
theorem C4_paths_resolved_witness :
    stepOpenedPaths .subset "wd" (fun n => n ++ ".txt") (fun _ => []) =
      (stepPathParams .subset (fun n => n ++ ".txt") (fun _ => [])).map
        (fun np => (np.1, osPathJoin "wd" np.2)) :=
  C4_paths_resolved .subset "wd" (fun n => n ++ ".txt") (fun _ => [])
    (by decide) (by decide) (by decide) (by decide)

/-- C5: in paired mode (shuffle_target disabled) with two T-line files and a
sample of K distinct indices below T, the subset step writes source and
target outputs of exactly K lines; the selected original indices (the
ascending sort of the sample) are unique; and output row n carries the
source line and the target line of the same original index. -/
theorem C5_get_subset_paired (src tgt : List String) (T K : Nat)
    (hsrc : src.length = T) (htgt : tgt.length = T)
    (s : List Nat) (draw2 : Except String (List Nat))
    (shuffle : List String → List String)
    (hs : sampleOk T K (.ok s)) :
    (sortAsc s).Nodup ∧ (sortAsc s).length = K ∧ (∀ i ∈ sortAsc s, i < T) ∧
    get_subset_step K src tgt false (.ok s) draw2 shuffle =
      ([("src_output", (sortAsc s).map (fun i => src.getD i "")),
        ("tgt_output", (sortAsc s).map (fun i => tgt.getD i ""))], none) := by
  obtain ⟨hKT, hnd, hlen, hrange⟩ := hs
  have hnd2 : (sortAsc s).Nodup := (sortAsc_perm s).nodup_iff.mpr hnd
  have hlen2 : (sortAsc s).length = K := by rw [(sortAsc_perm s).length_eq, hlen]
  have hr2 : ∀ i ∈ sortAsc s, i < T :=
    fun i hi => hrange i ((sortAsc_perm s).mem_iff.mp hi)
  refine ⟨hnd2, hlen2, hr2, ?_⟩
  have heq : get_subset_step K src tgt false (.ok s) draw2 shuffle =
      ([("src_output", yield_subset src s),
        ("tgt_output", yield_subset tgt s)], none) := rfl
  rw [heq,
    yield_subset_eq_map src s hnd (by intro i hi; rw [hsrc]; exact hrange i hi),
    yield_subset_eq_map tgt s hnd (by intro i hi; rw [htgt]; exact hrange i hi)]

/-- Witness for C5: the spec's concrete scenario 1 — source
["a","b","c","d"], target ["w","x","y","z"], size 2, sampled indices {1,3}. -/
theorem C5_get_subset_paired_witness :
    get_subset_step 2 ["a", "b", "c", "d"] ["w", "x", "y", "z"] false
      (.ok [3, 1]) (.ok []) (fun l => l) =
      ([("src_output", ["b", "d"]), ("tgt_output", ["x", "z"])], none) := by
  have h := C5_get_subset_paired ["a", "b", "c", "d"] ["w", "x", "y", "z"] 4 2
    (by decide) (by decide) [3, 1] (.ok []) (fun l => l)
    ⟨by decide, by decide, by decide, by decide⟩
  simpa using h.2.2.2

/-- C6: in shuffle_target mode with two T-line files and two independent
samples of K distinct indices below T, the subset step writes a source
output whose lines appear in ascending original-index order, and a target
output that is a permutation of (in particular has the same multiset of
lines as) the K-line extraction that plain index-sampling of the target
with the second sample would have produced. -/
theorem C6_get_subset_shuffle (src tgt : List String) (T K : Nat)
    (hsrc : src.length = T) (htgt : tgt.length = T)
    (s1 s2 : List Nat) (shuffle : List String → List String)
    (hshuffle : ∀ l, (shuffle l).Perm l)
    (h1 : sampleOk T K (.ok s1)) (h2 : sampleOk T K (.ok s2)) :
    (sortAsc s1).Sorted (· < ·) ∧ (sortAsc s1).length = K ∧
    get_subset_step K src tgt true (.ok s1) (.ok s2) shuffle =
      ([("src_output", (sortAsc s1).map (fun i => src.getD i "")),
        ("tgt_output", shuffle (yield_subset tgt s2))], none) ∧
    (shuffle (yield_subset tgt s2)).Perm (yield_subset tgt s2) ∧
    (yield_subset tgt s2).length = K := by
  obtain ⟨hKT1, hnd1, hlen1, hrange1⟩ := h1
  obtain ⟨hKT2, hnd2, hlen2, hrange2⟩ := h2
  have hmap2 := yield_subset_eq_map tgt s2 hnd2
    (by intro i hi; rw [htgt]; exact hrange2 i hi)
  refine ⟨sortAsc_sorted_lt hnd1,
    by rw [(sortAsc_perm s1).length_eq, hlen1], ?_, hshuffle _, ?_⟩
  · have heq : get_subset_step K src tgt true (.ok s1) (.ok s2) shuffle =
        ([("src_output", yield_subset src s1),
          ("tgt_output", shuffle (yield_subset tgt s2))], none) := rfl
    rw [heq, yield_subset_eq_map src s1 hnd1
      (by intro i hi; rw [hsrc]; exact hrange1 i hi)]
  · rw [hmap2, List.length_map, (sortAsc_perm s2).length_eq, hlen2]

/-- Witness for C6: four-line files, source sample {0,2}, target sample
{0,3}, shuffling by reversal. -/
theorem C6_get_subset_shuffle_witness :
    get_subset_step 2 ["a", "b", "c", "d"] ["w", "x", "y", "z"] true
      (.ok [2, 0]) (.ok [3, 0]) List.reverse =
      ([("src_output", ["a", "c"]), ("tgt_output", ["z", "w"])], none) := by
  have h := C6_get_subset_shuffle ["a", "b", "c", "d"] ["w", "x", "y", "z"] 4 2
    (by decide) (by decide) [2, 0] [3, 0] List.reverse
    (fun l => List.reverse_perm l)
    ⟨by decide, by decide, by decide, by decide⟩
    ⟨by decide, by decide, by decide, by decide⟩
  simpa using h.2.2.1

/-- C8: the score step's rewriting of filesystem-path-valued filter
parameters (WordAlignFilter priors, CrossEntropyFilter language-model
filenames and nested interpolation-model filenames) operates on a deep copy
of the caller-supplied configuration: reading the caller's configuration
object (any address of the well-formed caller heap) after the rewrite gives
exactly the value it had before. -/
theorem C8_score_rewrite_frame (d : String) (h : Heap) (a : Nat)
    (fuelC fuelR : Nat) (hwf : h.wfb = true) (ha : a < h.next) :
    readTree (score_rewrite d h a fuelC).1 fuelR a = readTree h fuelR a := by
  obtain ⟨hev, hcaddr⟩ := deepcopy_evol fuelC h a
  have hok1 : mutOk h.next (deepcopy fuelC h a).1 := by
    refine ⟨hev.1, fun b node hb hget => ?_⟩
    rcases hev.2.2 b node hget with hold | ⟨_, hr⟩
    · have := (wfb_get hwf hold).1
      omega
    · exact hr
  have hframe1 : frameBelow h.next h (deepcopy fuelC h a).1 :=
    fun b hb => hev.2.1 b hb
  have hfinal : frameBelow h.next h (score_rewrite d h a fuelC).1 := by
    cases hget : (deepcopy fuelC h a).1.get (deepcopy fuelC h a).2 with
    | none =>
      simp only [score_rewrite, hget]
      exact hframe1
    | some node =>
      cases node with
      | leaf s =>
        simp only [score_rewrite, hget]
        exact hframe1
      | dct kvs =>
        simp only [score_rewrite, hget]
        exact hframe1
      | lst fs =>
        have hfs : ∀ t ∈ fs, h.next ≤ t :=
          hok1.2 (deepcopy fuelC h a).2 _ hcaddr hget
        obtain ⟨hokF, hfrF⟩ := foldl_mutOk h.next (rewriteFilter d)
          (fun h2 t hok2 ht => rewriteFilter_spec d hok2 ht)
          fs (deepcopy fuelC h a).1 hok1 hfs
        simp only [score_rewrite, hget]
        exact frameBelow_trans hframe1 hfrF
  exact readTree_frame hfinal (wfb_lowClosed hwf) fuelR a ha

/-- Witness for C8: a caller heap holding the filter list
[{WordAlignFilter: {priors: "p.gz"}}] at address 3. -/
theorem C8_score_rewrite_frame_witness :
    readTree (score_rewrite "wd"
        ⟨[(0, PNode.leaf "p.gz"), (1, PNode.dct [("priors", 0)]),
          (2, PNode.dct [("WordAlignFilter", 1)]), (3, PNode.lst [2])], 4⟩
        3 10).1 10 3 =
      readTree
        ⟨[(0, PNode.leaf "p.gz"), (1, PNode.dct [("priors", 0)]),
          (2, PNode.dct [("WordAlignFilter", 1)]), (3, PNode.lst [2])], 4⟩
        10 3 :=
  C8_score_rewrite_frame "wd"
    ⟨[(0, PNode.leaf "p.gz"), (1, PNode.dct [("priors", 0)]),
      (2, PNode.dct [("WordAlignFilter", 1)]), (3, PNode.lst [2])], 4⟩
    3 10 10 (by decide) (by decide)

/-- Sanity check of the heap model: on the concrete WordAlignFilter
configuration the copy handed to `FilterPipeline.from_config` has its
priors path joined with the working directory — the rewrite really fires,
it just fires on the copy. -/
theorem score_rewrite_rewrites_the_copy :
    readTree (score_rewrite "wd"
        ⟨[(0, PNode.leaf "p.gz"), (1, PNode.dct [("priors", 0)]),
          (2, PNode.dct [("WordAlignFilter", 1)]), (3, PNode.lst [2])], 4⟩
        3 10).1 10
      (score_rewrite "wd"
        ⟨[(0, PNode.leaf "p.gz"), (1, PNode.dct [("priors", 0)]),
          (2, PNode.dct [("WordAlignFilter", 1)]), (3, PNode.lst [2])], 4⟩
        3 10).2 =
      PyTree.lst [PyTree.dct [("WordAlignFilter",
        PyTree.dct [("priors", PyTree.leaf "wd/p.gz")])]] := rfl

/-- C9: when the requested sample size exceeds the total line count of the
(source) input file, `random.sample` raises before any output file is
opened: the subset step fails with no file written, in both modes. -/
theorem C9_get_subset_oversample (src tgt : List String) (K : Nat)
    (st : Bool) (draw1 draw2 : Except String (List Nat))
    (shuffle : List String → List String)
    (h1 : sampleOk (get_total_lines src) K draw1)
    (hover : get_total_lines src < K) :
    (get_subset_step K src tgt st draw1 draw2 shuffle).1 = [] ∧
    (get_subset_step K src tgt st draw1 draw2 shuffle).2.isSome := by
  match draw1 with
  | .ok l => exact absurd h1.1 (Nat.not_le.mpr hover)
  | .error e => cases st <;> simp [get_subset_step]

/-- Witness for C9: a one-line file with requested size 3. -/
theorem C9_get_subset_oversample_witness :
    (get_subset_step 3 ["a"] ["w"] false
      (.error "Sample larger than population or is negative") (.ok [])
      (fun l => l)).1 = [] ∧
    (get_subset_step 3 ["a"] ["w"] false
      (.error "Sample larger than population or is negative") (.ok [])
      (fun l => l)).2.isSome :=
  C9_get_subset_oversample ["a"] ["w"] 3 false
    (.error "Sample larger than population or is negative") (.ok [])
    (fun l => l) (show (1 : Nat) < 3 by decide) (by decide)

/-- C7: the pair generator yields exactly one pair per source line
(terminating when the source is exhausted); output row i pairs source line i
with target line i; and when the target file is shorter than the source,
every row past the target's end carries the empty line, which the target
tokenizer maps to the empty token sequence. -/
theorem C7_pair_generator (f g : String → List String)
    (src tgt : List String) (htok : g "" = []) :
    (pair_generator f g src tgt).length = src.length ∧
    (∀ i, i < src.length →
      (pair_generator f g src tgt).get? i =
        some (f (pyRstrip (src.getD i "")), g (pyRstrip (tgt.getD i "")))) ∧
    (∀ i, i < src.length → tgt.length ≤ i →
      (pair_generator f g src tgt).get? i =
        some (f (pyRstrip (src.getD i "")), [])) := by
  refine ⟨pair_generator_length f g src tgt, pair_generator_get f g src tgt, ?_⟩
  intro i hi hlen
  rw [pair_generator_get f g src tgt i hi, List.getD_eq_default _ _ hlen]
  have hempty : pyRstrip "" = "" := rfl
  rw [hempty, htok]

/-- Witness for C7: two source lines against one target line. -/
theorem C7_pair_generator_witness :
    (pair_generator (fun s => [s]) (fun s => if s = "" then [] else [s])
      ["a", "b"] ["x"]).get? 1 = some (["b"], []) :=
  (C7_pair_generator (fun s => [s]) (fun s => if s = "" then [] else [s])
    ["a", "b"] ["x"] (by decide)).2.2 1 (by decide) (by decide)

/-- C10: with a non-empty step list, the single-step entry point called with
step number 0 selects the last step of the list, exactly as step number -1
does (and does not select the first step or fail). -/
theorem C10_execute_step_zero (steps : List α) (h : steps ≠ []) :
    execute_step_select steps 0 = some (steps.getLast h) ∧
    execute_step_select steps 0 = execute_step_select steps (-1) := by
  have hlen : 0 < steps.length := List.length_pos.mpr h
  have hsel : execute_step_select steps 0 = pyGetItem steps (-1) := by
    simp [execute_step_select]
  have hneg : pyGetItem steps (-1) = steps.get? (steps.length - 1) := by
    rw [pyGetItem, if_pos (by norm_num), if_neg (by omega)]
    congr 1
    omega
  constructor
  · rw [hsel, hneg, List.getLast_eq_get steps h,
      List.get?_eq_get (by omega)]
  · rw [hsel]
    simp [execute_step_select]

/-- Witness for C10: a two-step list. -/
theorem C10_execute_step_zero_witness :
    execute_step_select ["a", "b"] 0 = some "b" ∧
    execute_step_select ["a", "b"] 0 = execute_step_select ["a", "b"] (-1) :=
  C10_execute_step_zero ["a", "b"] (by decide)

end OpusFilterPy
